import Mathlib

/-!
A verification development for the question-bank similarity engine
(`src/components/qbank/similar-options.ts` and the ordering/shuffle logic of
`src/app/page.tsx`).

Modelling conventions (shallow embedding):
* JavaScript strings are sequences of UTF-16 code units, modelled as `List ℕ`
  of character codes.  Unicode character classes (`\p{L}`, `\p{N}`, `\s`,
  `toLowerCase`) are modelled on the ASCII fragment, which is where all the
  structural properties at stake (idempotence, trimming, collapsing, guard
  reachability) live.
* JavaScript numbers appearing as similarity scores are modelled as `ℚ`;
  each individual score is produced by a single exact division, so equalities
  and comparisons of scores transfer faithfully.
* The 32-bit integer arithmetic of the seeded shuffle (`Math.imul`, `^`,
  `>>>`, `|`) is modelled on `ℕ` with explicit `% 2^32` at every point where
  JavaScript coerces to 32 bits.
* Heterogeneous question records are modelled by the inductive `JSVal` of
  JavaScript values.
-/

/-- Code units of a Lean string literal, for writing concrete examples. -/
def codes (s : String) : List Nat := s.data.map Char.toNat

/-- Model of the JavaScript `\s` class (ASCII fragment): tab, LF, VT, FF,
CR and space. -/
def isWsCh (c : Nat) : Bool := c = 9 || c = 10 || c = 11 || c = 12 || c = 13 || c = 32

/-- Model of the Unicode letter class `\p{L}` (ASCII fragment). -/
def isLetterCh (c : Nat) : Bool := (65 ≤ c && c ≤ 90) || (97 ≤ c && c ≤ 122)

/-- Model of the Unicode number class `\p{N}` (ASCII fragment). -/
def isDigitCh (c : Nat) : Bool := 48 ≤ c && c ≤ 57

/-- Model of `String.prototype.toLowerCase` on one code unit (ASCII). -/
def jsToLower (c : Nat) : Nat := if 65 ≤ c && c ≤ 90 then c + 32 else c

/-- Model of `String.prototype.trim`: drop whitespace from both ends. -/
def trimWs (s : List Nat) : List Nat :=
  ((s.dropWhile isWsCh).reverse.dropWhile isWsCh).reverse

/-- One character of `.replace(/[^\p{L}\p{N}\s]/gu, " ")`: a character that is
not a letter, digit or whitespace becomes a space. -/
def replaceCh (c : Nat) : Nat :=
  if isLetterCh c || isDigitCh c || isWsCh c then c else 32

/-- Worker for `.replace(/\s+/g, " ")`: each maximal whitespace run is
replaced by a single space.  The flag records whether the previous character
belonged to a whitespace run. -/
def collapseWsGo (prevWs : Bool) : List Nat → List Nat
  | [] => []
  | c :: rest =>
    if isWsCh c then
      if prevWs then collapseWsGo true rest
      else 32 :: collapseWsGo true rest
    else c :: collapseWsGo false rest

/-- Model of `.replace(/\s+/g, " ")`. -/
def collapseWs (s : List Nat) : List Nat := collapseWsGo false s

/-- `normalizeText` of `similar-options.ts`:
`s.toLowerCase().trim().replace(/[^\p{L}\p{N}\s]/gu, " ").replace(/\s+/g, " ")`.
Note the order: the trim happens before punctuation is replaced by spaces. -/
def normalizeText (s : List Nat) : List Nat :=
  collapseWs ((trimWs (s.map jsToLower)).map replaceCh)

/-- All length-2 contiguous substrings, as pairs of adjacent code units. -/
def bigramList : List Nat → List (Nat × Nat)
  | a :: b :: rest => (a, b) :: bigramList (b :: rest)
  | _ => []

/-- `bigrams` of `similar-options.ts`: bigrams of the normalized string,
empty when the normalized string is shorter than 2. -/
def bigrams (s : List Nat) : List (Nat × Nat) :=
  let t := normalizeText s
  if t.length < 2 then [] else bigramList t

/-- The frequency map built by
`for (const x of A) freq.set(x, (freq.get(x) ?? 0) + 1)`. -/
def buildFreq (A : List (Nat × Nat)) : (Nat × Nat) → Nat :=
  A.foldl (fun f x => fun y => if y = x then f x + 1 else f y) (fun _ => 0)

/-- The matching loop of `diceSimilarity`: for each bigram of `B` with a
positive remaining count in `freq`, count a match and decrement. -/
def matchLoop (freq : (Nat × Nat) → Nat) : List (Nat × Nat) → Nat
  | [] => 0
  | y :: ys =>
    if 0 < freq y then
      1 + matchLoop (fun z => if z = y then freq y - 1 else freq z) ys
    else matchLoop freq ys

/-- `diceSimilarity` of `similar-options.ts`. -/
def diceSimilarity (a b : List Nat) : ℚ :=
  let A := bigrams a
  let B := bigrams b
  if A.length = 0 ∨ B.length = 0 then 0
  else (2 * (matchLoop (buildFreq A) B : ℚ)) / ((A.length : ℚ) + (B.length : ℚ))

/-- The regex test `/^[a-d]$/` on a (normalized, hence lowercased) string:
exactly one character, between `a` (97) and `d` (100). -/
def matchesSingleAtoD (s : List Nat) : Bool :=
  match s with
  | [c] => 97 ≤ c && c ≤ 100
  | _ => false

/-- `isWorthComparing` of `similar-options.ts`. -/
def isWorthComparing (a b : List Nat) (minLen : Nat) : Bool :=
  let na := normalizeText a
  let nb := normalizeText b
  if na.isEmpty || nb.isEmpty then false
  else if na.length < minLen || nb.length < minLen then false
  else if matchesSingleAtoD na || matchesSingleAtoD nb then false
  else true

/-- The variant of `isWorthComparing` with the single-letter regex guard
removed, stated by claim C10 as behaviourally equal whenever `minLen ≥ 2`.
This definition follows the claim's words, for comparison against
`isWorthComparing` (which follows the source). -/
def isWorthComparingWithoutGuard (a b : List Nat) (minLen : Nat) : Bool :=
  let na := normalizeText a
  let nb := normalizeText b
  if na.isEmpty || nb.isEmpty then false
  else if na.length < minLen || nb.length < minLen then false
  else true

/-- Lexicographic comparison of code-unit sequences, as JavaScript's default
string `<` and hence `Array.prototype.sort()` on two strings. -/
def lexLe : List Nat → List Nat → Bool
  | [], _ => true
  | _ :: _, [] => false
  | a :: s, b :: t => if a < b then true else if b < a then false else lexLe s t

/-- A JavaScript value, as far as the option-extraction logic observes it. -/
inductive JSVal where
  | undefined
  | null
  | bool (b : Bool)
  | num (n : Int)
  | str (s : List Nat)
  | arr (elems : List JSVal)
  | obj (fields : List (String × JSVal))

/-- Property access `v?.k` / `v.k`: `undefined` unless `v` is an object with
the field.  (JavaScript object literals with duplicate keys keep the last
binding; the records in this development have distinct keys, and `lookup`
takes the first.) -/
def getField (v : JSVal) (k : String) : JSVal :=
  match v with
  | .obj fields => (fields.lookup k).getD .undefined
  | _ => .undefined

/-- The nullish-coalescing operator `a ?? b`. -/
def nullish (a b : JSVal) : JSVal :=
  match a with
  | .undefined => b
  | .null => b
  | _ => a

/-- JavaScript falsiness, as tested by `if (!raw)`. -/
def isFalsy : JSVal → Bool
  | .undefined => true
  | .null => true
  | .bool b => !b
  | .num n => n = 0
  | .str s => s.isEmpty
  | .arr _ => false
  | .obj _ => false

/-- `String(v)`.  Arrays stringify by joining their elements with commas,
with `null`/`undefined` elements contributing the empty string. -/
def jsToString : JSVal → List Nat
  | .undefined => codes "undefined"
  | .null => codes "null"
  | .bool true => codes "true"
  | .bool false => codes "false"
  | .num n => codes (toString n)
  | .str s => s
  | .obj _ => codes "[object Object]"
  | .arr es =>
    (es.attach.map (fun e =>
      match e with
      | ⟨.undefined, _⟩ => []
      | ⟨.null, _⟩ => []
      | ⟨x, _⟩ => jsToString x)).intersperse (codes ",") |>.flatten

/-- Element coercion in the array branch of `extractOptions`:
a string as-is; a non-null object via `String(x.text ?? x.label ?? x.value ?? "")`;
anything else the empty string. -/
def coerceSeqElem (x : JSVal) : List Nat :=
  match x with
  | .str s => s
  | .obj _ =>
    jsToString (nullish (getField x "text")
      (nullish (getField x "label") (nullish (getField x "value") (.str []))))
  | .arr _ =>
    jsToString (nullish (getField x "text")
      (nullish (getField x "label") (nullish (getField x "value") (.str []))))
  | _ => []

/-- Element coercion in the key-value-mapping branch of `extractOptions`:
a string as-is; otherwise `String(x?.text ?? x?.label ?? x ?? "")` — note the
fallback is the value `x` itself, not `x.value`. -/
def coerceMapElem (x : JSVal) : List Nat :=
  match x with
  | .str s => s
  | _ =>
    jsToString (nullish (getField x "text")
      (nullish (getField x "label") (nullish x (.str []))))

/-- `extractOptions` of `similar-options.ts`. -/
def extractOptions (q : JSVal) : List (List Nat) :=
  let raw :=
    nullish (getField q "options")
      (nullish (getField q "choices")
        (nullish (getField q "answerOptions")
          (nullish (getField q "answers")
            (nullish (getField q "answersList") (getField q "optionsText")))))
  if isFalsy raw then []
  else
    match raw with
    | .arr xs => ((xs.map coerceSeqElem).map trimWs).filter (fun s => !s.isEmpty)
    | .obj fields =>
      ((fields.map (fun kv => coerceMapElem kv.2)).map trimWs).filter (fun s => !s.isEmpty)
    | _ => []

/-- The similarity configuration `{ threshold, minLen }`. -/
structure Config where
  threshold : ℚ
  minLen : Nat

/-- The `DEFAULTS` constant: threshold 0.88, minLen 6. -/
def DEFAULTS : Config := ⟨88 / 100, 6⟩

/-- The result record of `getSimilarOptionsMeta`. -/
structure SimilarOptionsMeta where
  hasSimilar : Bool
  maxSimilarity : ℚ
  clusterKey : Option (List Nat)
  bestPair : Option (List Nat × List Nat)
deriving DecidableEq

/-- All index pairs `(i, j)` with `i < j`, in the nested-loop iteration order
of `getSimilarOptionsMeta` (`i` ascending, then `j` ascending), realized as
the corresponding element pairs. -/
def pairsInOrder : List (List Nat) → List (List Nat × List Nat)
  | [] => []
  | a :: rest => rest.map (fun b => (a, b)) ++ pairsInOrder rest

/-- The body of the nested loops of `getSimilarOptionsMeta`, acting on the
running `best` record for one pair `(a, b)`.  In the exactly-equal branch the
source assigns `best = { score: 1, pair: [a, b] }` unconditionally. -/
def pairStep (minLen : Nat) (best : ℚ × Option (List Nat × List Nat))
    (p : List Nat × List Nat) : ℚ × Option (List Nat × List Nat) :=
  if !isWorthComparing p.1 p.2 minLen then best
  else
    let na := normalizeText p.1
    let nb := normalizeText p.2
    if na = nb then (1, some p)
    else
      let containment : ℚ :=
        if 10 < na.length ∧ 10 < nb.length ∧ (nb <:+: na ∨ na <:+: nb)
        then 92 / 100 else 0
      let score := max (diceSimilarity p.1 p.2) containment
      if best.1 < score then (score, some p) else best

/-- `getSimilarOptionsMeta` of `similar-options.ts` (with the
`{...DEFAULTS, ...cfg}` merge already performed into a full `Config`). -/
def getSimilarOptionsMeta (q : JSVal) (cfg : Config) : SimilarOptionsMeta :=
  let options := extractOptions q
  let best := (pairsInOrder options).foldl (pairStep cfg.minLen) (0, none)
  let hasSimilar := decide (cfg.threshold ≤ best.1)
  let clusterKey :=
    if hasSimilar then
      match best.2 with
      | some (a, b) =>
        let na := normalizeText a
        let nb := normalizeText b
        some (if lexLe na nb then na ++ [124] ++ nb else nb ++ [124] ++ na)
      | none => none
    else none
  ⟨hasSimilar, best.1, clusterKey, best.2⟩

/-- The per-question cache `optionsById` of `page.tsx`:
`extractOptions(q).map(normalizeText).filter(Boolean)`. -/
def normalizedOptions (q : JSVal) : List (List Nat) :=
  ((extractOptions q).map normalizeText).filter (fun s => !s.isEmpty)

/-- `bestAvg(X, Y)` inside `questionSimilarity` of `page.tsx`: for each
`x` in `X` the best similarity against `Y` (starting from 0), averaged
over `X`. -/
def bestAvg (X Y : List (List Nat)) : ℚ :=
  (X.foldl (fun sum x =>
    sum + Y.foldl (fun best y => max best (diceSimilarity x y)) 0) 0) / (X.length : ℚ)

/-- `questionSimilarity` of `page.tsx`, acting on the two questions' cached
normalized option lists. -/
def questionSimilarity (A B : List (List Nat)) : ℚ :=
  if A.length = 0 ∨ B.length = 0 then 0
  else (bestAvg A B + bestAvg B A) / 2

/-- The FNV-1a-style seed hash of `seededShuffle`:
`h = 2166136261`, then per character `h ^= c; h = Math.imul(h, 16777619)`,
with the 32-bit coercions written as `% 2^32`. -/
def fnvHash (seed : List Nat) : Nat :=
  seed.foldl (fun h c => ((h ^^^ c) * 16777619) % 2 ^ 32) 2166136261

/-- One draw of the mulberry32-style generator `rnd` of `seededShuffle`,
computed from the state `h` (after the `h += 0x6d2b79f5` increment).
Every JavaScript 32-bit coercion (`Math.imul`, `^`, `>>>`, `|`) is written
as the corresponding `ℕ` operation modulo `2^32`. -/
def rndVal (h : Nat) : Nat :=
  let hm := h % 2 ^ 32
  let t1 := ((hm ^^^ (hm >>> 15)) * (hm ||| 1)) % 2 ^ 32
  let m := ((t1 ^^^ (t1 >>> 7)) * (t1 ||| 61)) % 2 ^ 32
  let t2 := t1 ^^^ ((t1 + m) % 2 ^ 32)
  t2 ^^^ (t2 >>> 14)

/-- Swap the elements at positions `i` and `j` (identity when either index is
out of range), modelling `[copy[i], copy[j]] = [copy[j], copy[i]]`. -/
def listSwap (l : List α) (i j : Nat) : List α :=
  match l[i]?, l[j]? with
  | some a, some b => (l.set i b).set j a
  | _, _ => l

/-- The Fisher–Yates loop of `seededShuffle`: `i` runs from `len - 1` down
to `1`; each iteration advances the generator state by `0x6d2b79f5`, draws
`j = floor(rnd() * (i + 1))` and swaps positions `i` and `j`. -/
def fyLoop (l : List α) (h : Nat) : Nat → List α
  | 0 => l
  | i + 1 =>
    let h2 := h + 0x6d2b79f5
    let j := rndVal h2 * (i + 2) / 2 ^ 32
    fyLoop (listSwap l (i + 1) j) h2 i

/-- `seededShuffle` of `page.tsx`.  The source copies the input array and
shuffles the copy in place; the model is a pure function of the input. -/
def seededShuffle (arr : List α) (seed : List Nat) : List α :=
  fyLoop arr (fnvHash seed) (arr.length - 1)

/-- The scan pattern shared by `pickBestStart` and the inner loop of
`orderSimilarQuestions`: iterate the remaining ids in order, keeping the
first id whose score strictly exceeds the best so far (initially `-1`);
`none` when the list is empty or no score exceeds `-1`. -/
def scanBest (f : Nat → ℚ) (l : List Nat) : Option Nat :=
  (l.foldl (fun acc id => if acc.2 < f id then (some id, f id) else acc)
    ((none : Option Nat), (-1 : ℚ))).1

theorem length_erase_lt {α : Type u} [DecidableEq α] {a : α} {l : List α}
    (h : a ∈ l) : (l.erase a).length < l.length := by
  rw [← List.length_erase_add_one h]
  omega

theorem scanBest_go_mem (f : Nat → ℚ) (l : List Nat) (acc : Option Nat × ℚ) :
    (l.foldl (fun acc id => if acc.2 < f id then (some id, f id) else acc) acc).1 = acc.1
    ∨ ∃ id ∈ l, (l.foldl (fun acc id => if acc.2 < f id then (some id, f id) else acc) acc).1
        = some id := by
  induction l generalizing acc with
  | nil => exact Or.inl rfl
  | cons x xs ih =>
    simp only [List.foldl_cons]
    by_cases hx : acc.2 < f x
    · rw [if_pos hx]
      rcases ih (some x, f x) with h | ⟨id, hid, h⟩
      · exact Or.inr ⟨x, List.mem_cons_self x xs, h⟩
      · exact Or.inr ⟨id, List.mem_cons_of_mem x hid, h⟩
    · rw [if_neg hx]
      rcases ih acc with h | ⟨id, hid, h⟩
      · exact Or.inl h
      · exact Or.inr ⟨id, List.mem_cons_of_mem x hid, h⟩

theorem scanBest_mem {f : Nat → ℚ} {l : List Nat} {id : Nat}
    (h : scanBest f l = some id) : id ∈ l := by
  unfold scanBest at h
  rcases scanBest_go_mem f l (none, -1) with h0 | ⟨j, hj, hsome⟩
  · rw [h] at h0; cases h0
  · rw [h] at hsome; cases hsome; exact hj

/-- The inner while-loop of `orderSimilarQuestions`: starting from the chain
tail `current`, repeatedly append the remaining question of maximal
`questionSimilarity` to the tail (first-encountered wins ties), until
`remaining` is exhausted or no candidate scores above `-1`.  Returns the
appended chain and the leftover remaining ids.  `get` is
`id => byId.get(id)!`; by construction of the `byId` map, the question
returned for `id` has id `id`, so `remaining.delete(bestNext.id)` is
modelled as erasing the scanned id. -/
def innerChain (qsim : α → α → ℚ) (get : Nat → α) (current : α)
    (remaining : List Nat) : List α × List Nat :=
  match h : scanBest (fun id => qsim current (get id)) remaining with
  | none => ([], remaining)
  | some id =>
    let q := get id
    let r := innerChain qsim get q (remaining.erase id)
    (q :: r.1, r.2)
termination_by remaining.length
decreasing_by exact length_erase_lt (scanBest_mem h)

theorem innerChain_rem_length (qsim : α → α → ℚ) (get : Nat → α) :
    ∀ (n : Nat) (remaining : List Nat), remaining.length ≤ n → ∀ (current : α),
    (innerChain qsim get current remaining).2.length ≤ remaining.length := by
  intro n
  induction n with
  | zero =>
    intro remaining hlen current
    have hnil : remaining = [] := List.eq_nil_of_length_eq_zero (Nat.le_zero.mp hlen)
    subst hnil
    rw [innerChain]
    exact Nat.le_refl _
  | succ n ih =>
    intro remaining hlen current
    rw [innerChain]
    split
    · exact Nat.le_refl _
    · next id h =>
      have hlt : (remaining.erase id).length < remaining.length :=
        length_erase_lt (scanBest_mem h)
      have hrec := ih (remaining.erase id) (by omega) (get id)
      show (innerChain qsim get (get id) (remaining.erase id)).2.length ≤ remaining.length
      omega

/-- The chain-start choice of `pickBestStart`: the remaining id of maximal
cached `maxSimilarity` under a strict-improvement scan starting from `-1`,
falling back to the first remaining id (`[...remaining][0]`). -/
def pickStartId (meta : Nat → ℚ) (remaining : List Nat) : Nat :=
  (scanBest meta remaining).getD (remaining.headD 0)

theorem pickStartId_mem {meta : Nat → ℚ} {remaining : List Nat}
    (h : remaining ≠ []) : pickStartId meta remaining ∈ remaining := by
  unfold pickStartId
  cases hs : scanBest meta remaining with
  | none =>
    cases remaining with
    | nil => exact absurd rfl h
    | cons a l => simp
  | some j => simpa using scanBest_mem hs

/-- The outer while-loop of `orderSimilarQuestions`: pick a chain start via
`pickBestStart`, run the inner chain, and restart while ids remain. -/
def outerLoop (meta : Nat → ℚ) (qsim : α → α → ℚ) (get : Nat → α)
    (remaining : List Nat) : List α :=
  if hne : remaining.isEmpty then []
  else
    let sid := pickStartId meta remaining
    let start := get sid
    let r := innerChain qsim get start (remaining.erase sid)
    (start :: r.1) ++ outerLoop meta qsim get r.2
termination_by remaining.length
decreasing_by
  have hmem : pickStartId meta remaining ∈ remaining :=
    pickStartId_mem (by simpa [List.isEmpty_iff] using hne)
  have h1 : (remaining.erase (pickStartId meta remaining)).length < remaining.length :=
    length_erase_lt hmem
  have h2 := innerChain_rem_length qsim get
    (remaining.erase (pickStartId meta remaining)).length
    (remaining.erase (pickStartId meta remaining)) (Nat.le_refl _)
    (get (pickStartId meta remaining))
  omega

/-- `new Set(arr.map(q => q.id))`: insertion-order deduplication (a
JavaScript `Set` keeps the first occurrence). -/
def setDedup (l : List Nat) : List Nat :=
  l.foldl (fun acc x => if x ∈ acc then acc else acc ++ [x]) []

/-- `orderSimilarQuestions` of `page.tsx`, parametrized over the closed-over
data: `meta` is `id => similarMetaById.get(id)?.maxSimilarity ?? 0`, `qsim`
is `questionSimilarity`, `idOf` reads `q.id`, `isRandom` tells whether the
active sort mode is `"random"` and `seed` is the shared random seed.
`dflt` totalizes the non-null assertion `byId.get(id)!`. -/
def orderSimilarQuestions (meta : Nat → ℚ) (qsim : α → α → ℚ) (idOf : α → Nat)
    (dflt : α) (isRandom : Bool) (seed : List Nat) (arr : List α) : List α :=
  if arr.length ≤ 2 then arr
  else
    let get : Nat → α := fun id => ((arr.map (fun q => (idOf q, q))).lookup id).getD dflt
    let out := outerLoop meta qsim get (setDedup (arr.map idOf))
    if isRandom then seededShuffle out seed else out

/-! ### Properties of `normalizeText` -/

/-- Characters that can occur in a normalized string: lowercase ASCII
letters, digits, and the space character. -/
def isNormalizedChar (c : Nat) : Bool :=
  (97 ≤ c && c ≤ 122) || (48 ≤ c && c ≤ 57) || c = 32

/-- No two adjacent whitespace characters (whitespace runs are collapsed). -/
def noTwoAdjacentWs : List Nat → Bool
  | a :: b :: rest => !(isWsCh a && isWsCh b) && noTwoAdjacentWs (b :: rest)
  | _ => true

/-- The adjacency relation underlying `noTwoAdjacentWs`. -/
def wsFree (a b : Nat) : Prop := ¬(isWsCh a = true ∧ isWsCh b = true)

theorem noTwoAdjacentWs_iff_chain :
    ∀ l : List Nat, noTwoAdjacentWs l = true ↔ List.Chain' wsFree l
  | [] => by simp [noTwoAdjacentWs]
  | [a] => by simp [noTwoAdjacentWs]
  | a :: b :: rest => by
    rw [List.chain'_cons, ← noTwoAdjacentWs_iff_chain (b :: rest)]
    cases ha : isWsCh a <;> cases hb : isWsCh b <;>
      simp [noTwoAdjacentWs, wsFree, ha, hb]

theorem mem_collapseWsGo {c : Nat} :
    ∀ (l : List Nat) (b : Bool), c ∈ collapseWsGo b l →
      c = 32 ∨ (c ∈ l ∧ isWsCh c = false) := by
  intro l
  induction l with
  | nil => intro b h; simp [collapseWsGo] at h
  | cons x rest ih =>
    intro b h
    by_cases hx : isWsCh x
    · cases b with
      | true =>
        simp only [collapseWsGo, hx, if_true] at h
        rcases ih true h with h32 | ⟨hm, hw⟩
        · exact Or.inl h32
        · exact Or.inr ⟨List.mem_cons_of_mem x hm, hw⟩
      | false =>
        simp [collapseWsGo, hx] at h
        rcases h with h32 | h2
        · exact Or.inl h32
        · rcases ih true h2 with h32 | ⟨hm, hw⟩
          · exact Or.inl h32
          · exact Or.inr ⟨List.mem_cons_of_mem x hm, hw⟩
    · simp [collapseWsGo, hx] at h
      rcases h with hc | h2
      · exact Or.inr ⟨hc ▸ List.mem_cons_self x rest,
          hc ▸ Bool.eq_false_iff.mpr hx⟩
      · rcases ih false h2 with h32 | ⟨hm, hw⟩
        · exact Or.inl h32
        · exact Or.inr ⟨List.mem_cons_of_mem x hm, hw⟩

theorem head_collapseWsGo_true {c : Nat} :
    ∀ l : List Nat, (collapseWsGo true l).head? = some c → isWsCh c = false := by
  intro l
  induction l with
  | nil => intro h; simp [collapseWsGo] at h
  | cons x rest ih =>
    intro h
    by_cases hx : isWsCh x
    · simp only [collapseWsGo, hx, if_true] at h
      exact ih h
    · simp [collapseWsGo, hx] at h
      exact h ▸ Bool.eq_false_iff.mpr hx

theorem chain_collapseWsGo :
    ∀ (l : List Nat) (b : Bool), List.Chain' wsFree (collapseWsGo b l) := by
  intro l
  induction l with
  | nil => intro b; simp [collapseWsGo]
  | cons x rest ih =>
    intro b
    by_cases hx : isWsCh x
    · cases b with
      | true =>
        simp only [collapseWsGo, hx, if_true]
        exact ih true
      | false =>
        simp only [collapseWsGo, hx, if_true, Bool.false_eq_true, if_false]
        rw [List.chain'_cons']
        refine ⟨fun y hy => ?_, ih true⟩
        have hns := head_collapseWsGo_true rest hy
        exact fun hc => by rw [hns] at hc; exact Bool.false_ne_true hc.2
    · unfold collapseWsGo
      rw [if_neg hx, List.chain'_cons']
      refine ⟨fun y hy => ?_, ih false⟩
      exact fun hc => hx hc.1

theorem collapseWsGo_id :
    ∀ l : List Nat, List.Chain' wsFree l → (∀ c ∈ l, isWsCh c = true → c = 32) →
      collapseWsGo false l = l := by
  intro l
  induction l with
  | nil => intro _ _; rfl
  | cons x rest ih =>
    intro hch hall
    by_cases hx : isWsCh x
    · have hx32 : x = 32 := hall x (List.mem_cons_self x rest) hx
      have htail : collapseWsGo true rest = rest := by
        cases rest with
        | nil => rfl
        | cons d t =>
          have hrd : wsFree x d := (List.chain'_cons.mp hch).1
          have hd : isWsCh d = false := by
            cases hdd : isWsCh d
            · rfl
            · exact absurd ⟨hx, hdd⟩ hrd
          have hrec : collapseWsGo false (d :: t) = d :: t :=
            ih (List.chain'_cons.mp hch).2
              (fun c hc hw => hall c (List.mem_cons_of_mem x hc) hw)
          simp only [collapseWsGo, hd, Bool.false_eq_true, if_false] at hrec ⊢
          exact hrec
      unfold collapseWsGo
      rw [if_pos hx, if_neg (by decide : ¬(false = true)), htail, hx32]
    · have hrec : collapseWsGo false rest = rest := by
        cases rest with
        | nil => rfl
        | cons d t =>
          exact ih (List.chain'_cons.mp hch).2
            (fun c hc hw => hall c (List.mem_cons_of_mem x hc) hw)
      unfold collapseWsGo
      rw [if_neg hx, hrec]

theorem mem_trimWs {c : Nat} {l : List Nat} (h : c ∈ trimWs l) : c ∈ l := by
  unfold trimWs at h
  rw [List.mem_reverse] at h
  have h1 := (List.dropWhile_suffix isWsCh).sublist.subset h
  rw [List.mem_reverse] at h1
  exact (List.dropWhile_suffix isWsCh).sublist.subset h1

theorem wsFree_flip : (flip wsFree) = wsFree := by
  funext a b
  unfold flip wsFree
  rw [eq_iff_iff]
  tauto

theorem chain_trimWs {l : List Nat} (h : List.Chain' wsFree l) :
    List.Chain' wsFree (trimWs l) := by
  unfold trimWs
  have h1 : List.Chain' wsFree (l.dropWhile isWsCh) :=
    h.suffix (List.dropWhile_suffix isWsCh)
  have h2 : List.Chain' wsFree (l.dropWhile isWsCh).reverse := by
    rw [List.chain'_reverse, wsFree_flip]
    exact h1
  have h3 := h2.suffix (List.dropWhile_suffix isWsCh)
  rw [List.chain'_reverse, wsFree_flip]
  exact h3

theorem mem_normalizeText {c : Nat} {s : List Nat} (h : c ∈ normalizeText s) :
    isNormalizedChar c = true := by
  unfold normalizeText collapseWs at h
  rcases mem_collapseWsGo _ false h with h32 | ⟨hm, hnw⟩
  · simp [isNormalizedChar, h32]
  · rcases List.mem_map.mp hm with ⟨d, hd, hdc⟩
    have hdl : d ∈ s.map jsToLower := mem_trimWs hd
    rcases List.mem_map.mp hdl with ⟨e, _, hed⟩
    unfold replaceCh at hdc
    by_cases hw : isLetterCh d || isDigitCh d || isWsCh d
    · rw [if_pos hw] at hdc
      subst hdc
      simp only [isLetterCh, isDigitCh, isWsCh, Bool.or_eq_true, Bool.and_eq_true,
        decide_eq_true_eq] at hw
      simp only [isWsCh, Bool.or_eq_false_iff, decide_eq_false_iff_not] at hnw
      unfold jsToLower at hed
      by_cases he : 65 ≤ e && e ≤ 90
      · rw [if_pos he] at hed
        simp only [Bool.and_eq_true, decide_eq_true_eq] at he
        simp only [isNormalizedChar, Bool.or_eq_true, Bool.and_eq_true,
          decide_eq_true_eq]
        omega
      · rw [if_neg he] at hed
        simp only [Bool.and_eq_true, decide_eq_true_eq, not_and_or, not_le] at he
        simp only [isNormalizedChar, Bool.or_eq_true, Bool.and_eq_true,
          decide_eq_true_eq]
        omega
    · rw [if_neg hw] at hdc
      subst hdc
      simp [isWsCh] at hnw

theorem normalizedChar_ws_eq_32 {c : Nat} (h1 : isNormalizedChar c = true)
    (h2 : isWsCh c = true) : c = 32 := by
  simp only [isNormalizedChar, isWsCh, Bool.or_eq_true, Bool.and_eq_true,
    decide_eq_true_eq] at h1 h2
  omega

theorem jsToLower_fixed {c : Nat} (h : isNormalizedChar c = true) :
    jsToLower c = c := by
  simp only [isNormalizedChar, Bool.or_eq_true, Bool.and_eq_true,
    decide_eq_true_eq] at h
  unfold jsToLower
  rw [if_neg]
  simp only [Bool.and_eq_true, decide_eq_true_eq, not_and_or, not_le]
  omega

theorem replaceCh_fixed {c : Nat} (h : isNormalizedChar c = true) :
    replaceCh c = c := by
  unfold replaceCh
  rw [if_pos]
  simp only [isNormalizedChar, Bool.or_eq_true, Bool.and_eq_true,
    decide_eq_true_eq] at h ⊢
  simp only [isLetterCh, isDigitCh, isWsCh, Bool.or_eq_true, Bool.and_eq_true,
    decide_eq_true_eq]
  omega

theorem chain_normalizeText (s : List Nat) :
    List.Chain' wsFree (normalizeText s) :=
  chain_collapseWsGo _ false

/-- Claim C3 (amended): every character of `normalizeText s` is a lowercase
ASCII letter, a digit or the space character, and no two adjacent characters
are both whitespace (whitespace runs are collapsed to a single space).  The
original claim's "no leading or trailing whitespace" is refuted by
`normalizeText_edge_space`: the trim runs before punctuation is replaced, so
a replaced edge character leaves a single edge space. -/
theorem normalizeText_charclass_collapsed (s : List Nat) :
    (∀ c ∈ normalizeText s, isNormalizedChar c = true) ∧
    noTwoAdjacentWs (normalizeText s) = true := by
  refine ⟨fun c hc => mem_normalizeText hc, ?_⟩
  rw [noTwoAdjacentWs_iff_chain]
  exact chain_normalizeText s

/-- Claim C3, counterexample: on input `"!"` the output of `normalizeText`
is a single space — it has leading and trailing whitespace, refuting the
claim's final conjunct. -/
theorem normalizeText_edge_space :
    normalizeText (codes "!") = [32] ∧ isWsCh 32 = true := by decide

/-- Claim C2 (amended): `normalizeText ∘ normalizeText = trimWs ∘
normalizeText`.  Normalizing twice is the same as trimming the normalized
string, so `normalizeText` is idempotent exactly on the inputs whose
normalized form carries no edge space. -/
theorem normalizeText_normalizeText (s : List Nat) :
    normalizeText (normalizeText s) = trimWs (normalizeText s) := by
  have hlower : (normalizeText s).map jsToLower = normalizeText s := by
    rw [List.map_congr_left (fun c hc => jsToLower_fixed (mem_normalizeText hc))]
    exact List.map_id _
  have hrepl : (trimWs (normalizeText s)).map replaceCh = trimWs (normalizeText s) := by
    rw [List.map_congr_left
      (fun c hc => replaceCh_fixed (mem_normalizeText (mem_trimWs hc)))]
    exact List.map_id _
  show collapseWs ((trimWs ((normalizeText s).map jsToLower)).map replaceCh) = _
  rw [hlower, hrepl]
  exact collapseWsGo_id _ (chain_trimWs (chain_normalizeText s))
    (fun c hc hw => normalizedChar_ws_eq_32 (mem_normalizeText (mem_trimWs hc)) hw)

/-- Claim C2, counterexample: `normalizeText` is not idempotent.  On `"!"`
the first pass yields `" "` (the trim runs before the punctuation
replacement) and the second pass yields `""`. -/
theorem normalizeText_not_idempotent :
    normalizeText (normalizeText (codes "!")) ≠ normalizeText (codes "!") := by
  decide

/-! ### Properties of `diceSimilarity` -/

theorem buildFreq_go (A : List (Nat × Nat)) :
    ∀ (f : (Nat × Nat) → Nat) (y : Nat × Nat),
    (A.foldl (fun f x => fun y => if y = x then f x + 1 else f y) f) y
      = f y + Multiset.count y (A : Multiset (Nat × Nat)) := by
  induction A with
  | nil => intro f y; simp
  | cons x xs ih =>
    intro f y
    have hco : ((x :: xs : List (Nat × Nat)) : Multiset (Nat × Nat))
        = x ::ₘ (xs : Multiset (Nat × Nat)) := rfl
    simp only [List.foldl_cons, hco, Multiset.count_cons]
    rw [ih]
    by_cases hxy : y = x
    · simp [hxy]; omega
    · simp [hxy]

theorem buildFreq_eq_count (A : List (Nat × Nat)) (y : Nat × Nat) :
    buildFreq A y = Multiset.count y (A : Multiset (Nat × Nat)) := by
  unfold buildFreq
  rw [buildFreq_go]
  omega

theorem matchLoop_count_inter (B : List (Nat × Nat)) :
    ∀ F : Multiset (Nat × Nat),
    matchLoop (fun y => F.count y) B
      = Multiset.card (F ∩ (B : Multiset (Nat × Nat))) := by
  induction B with
  | nil => intro F; simp [matchLoop, Multiset.inter_zero]
  | cons y ys ih =>
    intro F
    unfold matchLoop
    by_cases hy : 0 < F.count y
    · rw [if_pos hy]
      have hupd : (fun z => if z = y then F.count y - 1 else F.count z)
          = fun z => (F.erase y).count z := by
        funext z
        by_cases hzy : z = y
        · subst hzy; simp [Multiset.count_erase_self]
        · simp [hzy, Multiset.count_erase_of_ne hzy]
      rw [hupd, ih (F.erase y)]
      have hmem : y ∈ F := Multiset.count_pos.mp hy
      have hco : ((y :: ys : List (Nat × Nat)) : Multiset (Nat × Nat))
          = y ::ₘ (ys : Multiset (Nat × Nat)) := rfl
      rw [hco, Multiset.inter_comm F (y ::ₘ (ys : Multiset (Nat × Nat))),
        Multiset.cons_inter_of_pos _ hmem, Multiset.card_cons,
        Multiset.inter_comm ((ys : Multiset (Nat × Nat))) (F.erase y)]
      omega
    · rw [if_neg hy, ih F]
      have hnmem : y ∉ F := by
        rw [← Multiset.count_pos]
        omega
      have hco : ((y :: ys : List (Nat × Nat)) : Multiset (Nat × Nat))
          = y ::ₘ (ys : Multiset (Nat × Nat)) := rfl
      rw [hco, Multiset.inter_comm F (y ::ₘ (ys : Multiset (Nat × Nat))),
        Multiset.cons_inter_of_neg _ hnmem,
        Multiset.inter_comm ((ys : Multiset (Nat × Nat))) F]

theorem matchLoop_buildFreq (A B : List (Nat × Nat)) :
    matchLoop (buildFreq A) B
      = Multiset.card ((A : Multiset (Nat × Nat)) ∩ (B : Multiset (Nat × Nat))) := by
  have h : buildFreq A = fun y => (A : Multiset (Nat × Nat)).count y := by
    funext y
    rw [buildFreq_eq_count]
  rw [h, matchLoop_count_inter]

theorem matchLoop_symm (A B : List (Nat × Nat)) :
    matchLoop (buildFreq A) B = matchLoop (buildFreq B) A := by
  rw [matchLoop_buildFreq, matchLoop_buildFreq, Multiset.inter_comm]

theorem matchLoop_le_left (A B : List (Nat × Nat)) :
    matchLoop (buildFreq A) B ≤ A.length := by
  rw [matchLoop_buildFreq]
  have h := Multiset.card_le_card
    (Multiset.inter_le_left (s := (A : Multiset (Nat × Nat))) (t := (B : Multiset (Nat × Nat))))
  simpa using h

theorem matchLoop_le_right (A B : List (Nat × Nat)) :
    matchLoop (buildFreq A) B ≤ B.length := by
  rw [matchLoop_buildFreq]
  have h := Multiset.card_le_card
    (Multiset.inter_le_right (s := (A : Multiset (Nat × Nat))) (t := (B : Multiset (Nat × Nat))))
  simpa using h

/-- Claim C5: `diceSimilarity` is symmetric, even though the match-counting
multiset is built from only one side — the matching loop computes the size
of the multiset intersection of the two bigram multisets, which is
commutative. -/
theorem diceSimilarity_symm (a b : List Nat) :
    diceSimilarity a b = diceSimilarity b a := by
  simp only [diceSimilarity]
  rw [matchLoop_symm]
  by_cases h1 : (bigrams a).length = 0 <;> by_cases h2 : (bigrams b).length = 0 <;>
    simp [h1, h2, add_comm]

theorem diceSimilarity_nonneg (a b : List Nat) : 0 ≤ diceSimilarity a b := by
  simp only [diceSimilarity]
  by_cases h : (bigrams a).length = 0 ∨ (bigrams b).length = 0
  · rw [if_pos h]
  · rw [if_neg h]
    push_neg at h
    apply div_nonneg
    · positivity
    · positivity

theorem diceSimilarity_le_one (a b : List Nat) : diceSimilarity a b ≤ 1 := by
  simp only [diceSimilarity]
  by_cases h : (bigrams a).length = 0 ∨ (bigrams b).length = 0
  · rw [if_pos h]; exact zero_le_one
  · rw [if_neg h]
    push_neg at h
    have hA : 0 < (bigrams a).length := Nat.pos_of_ne_zero h.1
    have hB : 0 < (bigrams b).length := Nat.pos_of_ne_zero h.2
    rw [div_le_one (by positivity)]
    have hm1 : (matchLoop (buildFreq (bigrams a)) (bigrams b) : ℚ)
        ≤ ((bigrams a).length : ℚ) := by exact_mod_cast matchLoop_le_left _ _
    have hm2 : (matchLoop (buildFreq (bigrams a)) (bigrams b) : ℚ)
        ≤ ((bigrams b).length : ℚ) := by exact_mod_cast matchLoop_le_right _ _
    linarith

theorem diceSimilarity_self {x : List Nat} (h : (bigrams x).length ≠ 0) :
    diceSimilarity x x = 1 := by
  simp only [diceSimilarity]
  rw [if_neg (by tauto), matchLoop_buildFreq]
  have hself : (bigrams x : Multiset (Nat × Nat)) ∩ (bigrams x : Multiset (Nat × Nat))
      = (bigrams x : Multiset (Nat × Nat)) :=
    le_antisymm (Multiset.inter_le_left _ _) (Multiset.le_inter le_rfl le_rfl)
  rw [hself]
  have hl : ((bigrams x).length : ℚ) ≠ 0 := Nat.cast_ne_zero.mpr h
  simp only [Multiset.coe_card]
  field_simp
  ring

/-! ### Claims C10 and C8 -/

theorem matchesSingleAtoD_length {s : List Nat} (h : matchesSingleAtoD s = true) :
    s.length = 1 := by
  cases s with
  | nil => simp [matchesSingleAtoD] at h
  | cons c t =>
    cases t with
    | nil => rfl
    | cons d u => simp [matchesSingleAtoD] at h

/-- Claim C10: whenever `minLen ≥ 2`, the `/^[a-d]$/` guard of
`isWorthComparing` is unreachable — any string it would reject has
normalized length 1 and is already rejected by the length check — so
`isWorthComparing` agrees with the guard-free variant. -/
theorem isWorthComparing_guard_redundant (a b : List Nat) (minLen : Nat)
    (h : 2 ≤ minLen) :
    isWorthComparing a b minLen = isWorthComparingWithoutGuard a b minLen := by
  simp only [isWorthComparing, isWorthComparingWithoutGuard]
  by_cases h1 : (normalizeText a).isEmpty || (normalizeText b).isEmpty
  · rw [if_pos h1, if_pos h1]
  · rw [if_neg h1, if_neg h1]
    by_cases h2 : (normalizeText a).length < minLen || (normalizeText b).length < minLen
    · rw [if_pos h2, if_pos h2]
    · rw [if_neg h2, if_neg h2]
      have hguard :
          ¬(matchesSingleAtoD (normalizeText a) || matchesSingleAtoD (normalizeText b)) = true := by
        simp only [Bool.or_eq_true, not_or]
        simp only [Bool.or_eq_true, not_or, decide_eq_true_eq, not_lt] at h2
        constructor
        · intro hm
          have hl := matchesSingleAtoD_length hm
          omega
        · intro hm
          have hl := matchesSingleAtoD_length hm
          omega
      rw [if_neg hguard]

theorem isWorthComparing_guard_redundant_witness :
    2 ≤ 6 ∧ isWorthComparing (codes "abcdef") (codes "worldy") 6
      = isWorthComparingWithoutGuard (codes "abcdef") (codes "worldy") 6 :=
  ⟨by decide, isWorthComparing_guard_redundant (codes "abcdef") (codes "worldy") 6 (by decide)⟩

/-- Claim C8: a question whose extracted options number 0 or 1 yields, under
the default configuration, exactly
`hasSimilar = false, maxSimilarity = 0, clusterKey = null, bestPair = null`
(the pair loops never execute, and the whole computation is total). -/
theorem getSimilarOptionsMeta_few_options (q : JSVal)
    (h : (extractOptions q).length ≤ 1) :
    getSimilarOptionsMeta q DEFAULTS
      = ⟨false, 0, none, none⟩ := by
  have hp : pairsInOrder (extractOptions q) = [] := by
    cases hopt : extractOptions q with
    | nil => rfl
    | cons x t =>
      cases t with
      | nil => rfl
      | cons y u => rw [hopt] at h; simp at h
  simp only [getSimilarOptionsMeta, hp, List.foldl_nil]
  have hth : decide (DEFAULTS.threshold ≤ ((0 : ℚ), (none : Option (List Nat × List Nat))).1)
      = false := by
    rw [decide_eq_false_iff_not]
    norm_num [DEFAULTS]
  rw [hth]
  simp

theorem getSimilarOptionsMeta_few_options_witness :
    (extractOptions (JSVal.obj [])).length ≤ 1 ∧
    getSimilarOptionsMeta (JSVal.obj []) DEFAULTS = ⟨false, 0, none, none⟩ :=
  ⟨by decide, getSimilarOptionsMeta_few_options (JSVal.obj []) (by decide)⟩

/-! ### Claim C1: exact-equal pairs and the running best -/

/-- A pair that survives `isWorthComparing` and whose two normalized forms
are exactly equal (the branch that assigns `best = { score: 1, pair }`
unconditionally). -/
def survivingEqPair (minLen : Nat) (p : List Nat × List Nat) : Bool :=
  isWorthComparing p.1 p.2 minLen && decide (normalizeText p.1 = normalizeText p.2)

theorem pairStep_skip {m : Nat} {b : ℚ × Option (List Nat × List Nat)}
    {p : List Nat × List Nat} (hw : isWorthComparing p.1 p.2 m = false) :
    pairStep m b p = b := by
  simp only [pairStep, hw]
  rfl

theorem pairStep_eq {m : Nat} (b : ℚ × Option (List Nat × List Nat))
    {p : List Nat × List Nat} (hw : isWorthComparing p.1 p.2 m = true)
    (heq : normalizeText p.1 = normalizeText p.2) :
    pairStep m b p = (1, some p) := by
  simp only [pairStep, hw, Bool.not_true, Bool.false_eq_true, if_false, heq, if_pos]

theorem pairStep_keeps_one {m : Nat} {b : ℚ × Option (List Nat × List Nat)}
    {p : List Nat × List Nat} (h1 : b.1 = 1)
    (hne : survivingEqPair m p = false) : pairStep m b p = b := by
  by_cases hw : isWorthComparing p.1 p.2 m
  · have heq : ¬(normalizeText p.1 = normalizeText p.2) := by
      simp only [survivingEqPair, hw, Bool.true_and, decide_eq_false_iff_not] at hne
      exact hne
    simp only [pairStep, hw, Bool.not_true, Bool.false_eq_true, if_false, if_neg heq]
    rw [if_neg]
    rw [h1]
    rw [not_lt]
    refine max_le (diceSimilarity_le_one p.1 p.2) ?_
    by_cases hc : 10 < (normalizeText p.1).length ∧ 10 < (normalizeText p.2).length
        ∧ (normalizeText p.2 <:+: normalizeText p.1 ∨ normalizeText p.1 <:+: normalizeText p.2)
    · rw [if_pos hc]; norm_num
    · rw [if_neg hc]; norm_num
  · exact pairStep_skip (Bool.eq_false_iff.mpr hw)

theorem foldl_pairStep_no_eq (m : Nat) :
    ∀ (ps : List (List Nat × List Nat)) (b : ℚ × Option (List Nat × List Nat)),
    b.1 = 1 → (∀ p ∈ ps, survivingEqPair m p = false) →
    ps.foldl (pairStep m) b = b := by
  intro ps
  induction ps with
  | nil => intro b _ _; rfl
  | cons p rest ih =>
    intro b h1 h2
    rw [List.foldl_cons, pairStep_keeps_one h1 (h2 p (List.mem_cons_self p rest))]
    exact ih b h1 (fun x hx => h2 x (List.mem_cons_of_mem p hx))

theorem foldl_pairStep_eq (m : Nat) :
    ∀ (ps : List (List Nat × List Nat)) (b : ℚ × Option (List Nat × List Nat)),
    ps.filter (survivingEqPair m) ≠ [] →
    ps.foldl (pairStep m) b = (1, (ps.filter (survivingEqPair m)).getLast?) := by
  intro ps
  induction ps with
  | nil => intro b h; simp at h
  | cons p rest ih =>
    intro b hne
    rw [List.foldl_cons]
    by_cases hp : survivingEqPair m p
    · have hw : isWorthComparing p.1 p.2 m = true := by
        simp only [survivingEqPair, Bool.and_eq_true, decide_eq_true_eq] at hp
        exact hp.1
      have heqn : normalizeText p.1 = normalizeText p.2 := by
        simp only [survivingEqPair, Bool.and_eq_true, decide_eq_true_eq] at hp
        exact hp.2
      rw [pairStep_eq b hw heqn]
      by_cases hrest : rest.filter (survivingEqPair m) = []
      · rw [foldl_pairStep_no_eq m rest (1, some p) rfl
          (fun x hx => Bool.eq_false_iff.mpr (List.filter_eq_nil_iff.mp hrest x hx))]
        rw [List.filter_cons_of_pos hp, hrest]
        rfl
      · rw [ih (1, some p) hrest, List.filter_cons_of_pos hp]
        obtain ⟨x, xs, hxx⟩ := List.exists_cons_of_ne_nil hrest
        rw [hxx, List.getLast?_cons_cons]
    · have hfilter : (p :: rest).filter (survivingEqPair m)
          = rest.filter (survivingEqPair m) :=
        List.filter_cons_of_neg hp
      rw [hfilter] at hne ⊢
      exact ih (pairStep m b p) hne

/-- Claim C1 (amended): when a surviving pair has exactly equal normalized
forms its score is 1 and it becomes the leading candidate
*unconditionally* — the source assigns `best = { score: 1, pair: [a, b] }`
without comparing against the current best, so among surviving exact-equal
pairs the *last* one in iteration order (`i` ascending, then `j` ascending)
ends up as `bestPair`, not the first-found one; later non-equal pairs never
displace it because every score is at most 1 and replacement there requires
strict improvement. -/
theorem getSimilarOptionsMeta_eq_pair_last (q : JSVal) (cfg : Config)
    (hne : (pairsInOrder (extractOptions q)).filter (survivingEqPair cfg.minLen) ≠ []) :
    (getSimilarOptionsMeta q cfg).maxSimilarity = 1 ∧
    (getSimilarOptionsMeta q cfg).bestPair
      = ((pairsInOrder (extractOptions q)).filter (survivingEqPair cfg.minLen)).getLast? := by
  simp only [getSimilarOptionsMeta]
  rw [foldl_pairStep_eq cfg.minLen _ _ hne]
  exact ⟨rfl, rfl⟩

/-- The question used to exercise claim C1: three distinct option strings
with identical normalized forms. -/
def qExactDup : JSVal :=
  .obj [("options", .arr [.str (codes "ABCDEF"), .str (codes "abcdef"),
    .str (codes "AbCdEf")])]

/-- Claim C1, counterexample: all three pairs of `qExactDup` survive and
normalize equally, yet `bestPair` is the *last* pair `(options[1],
options[2])`, not the first-found `(options[0], options[1])` — an
exact-equal pair replaces an earlier pair of the same score 1. -/
theorem getSimilarOptionsMeta_ties_reassigned :
    (getSimilarOptionsMeta qExactDup DEFAULTS).bestPair
        = some (codes "abcdef", codes "AbCdEf")
    ∧ (getSimilarOptionsMeta qExactDup DEFAULTS).bestPair
        ≠ some (codes "ABCDEF", codes "abcdef") := by
  constructor
  · rfl
  · intro h
    rw [show (getSimilarOptionsMeta qExactDup DEFAULTS).bestPair
        = some (codes "abcdef", codes "AbCdEf") from rfl] at h
    simp [codes] at h

theorem getSimilarOptionsMeta_eq_pair_last_witness :
    (pairsInOrder (extractOptions qExactDup)).filter (survivingEqPair DEFAULTS.minLen) ≠ []
    ∧ ((getSimilarOptionsMeta qExactDup DEFAULTS).maxSimilarity = 1 ∧
       (getSimilarOptionsMeta qExactDup DEFAULTS).bestPair
         = ((pairsInOrder (extractOptions qExactDup)).filter
             (survivingEqPair DEFAULTS.minLen)).getLast?) :=
  ⟨by decide, getSimilarOptionsMeta_eq_pair_last qExactDup DEFAULTS (by decide)⟩

/-! ### Claim C9: conditional reflexivity of `questionSimilarity` -/

theorem foldl_max_ge_init {β : Type} (f : β → ℚ) (l : List β) (a : ℚ) :
    a ≤ l.foldl (fun best y => max best (f y)) a := by
  induction l generalizing a with
  | nil => exact le_refl a
  | cons x xs ih =>
    rw [List.foldl_cons]
    exact le_trans (le_max_left a (f x)) (ih (max a (f x)))

theorem foldl_max_ge_mem {β : Type} (f : β → ℚ) (l : List β) {y : β}
    (hy : y ∈ l) : ∀ a : ℚ, f y ≤ l.foldl (fun best y => max best (f y)) a := by
  induction l with
  | nil => cases hy
  | cons x xs ih =>
    intro a
    rw [List.foldl_cons]
    rcases List.mem_cons.mp hy with hyx | hyxs
    · subst hyx
      exact le_trans (le_max_right a (f y)) (foldl_max_ge_init f xs _)
    · exact ih hyxs _

theorem foldl_max_le_of {β : Type} (f : β → ℚ) (l : List β) (a c : ℚ)
    (ha : a ≤ c) (h : ∀ y ∈ l, f y ≤ c) :
    l.foldl (fun best y => max best (f y)) a ≤ c := by
  induction l generalizing a with
  | nil => exact ha
  | cons x xs ih =>
    rw [List.foldl_cons]
    exact ih _ (max_le ha (h x (List.mem_cons_self x xs)))
      (fun y hy => h y (List.mem_cons_of_mem x hy))

theorem foldl_add_const {β : Type} (g : β → ℚ) (X : List β)
    (hg : ∀ x ∈ X, g x = 1) :
    ∀ a : ℚ, X.foldl (fun s x => s + g x) a = a + X.length := by
  induction X with
  | nil => intro a; simp
  | cons x xs ih =>
    intro a
    rw [List.foldl_cons, hg x (List.mem_cons_self x xs),
      ih (fun y hy => hg y (List.mem_cons_of_mem x hy))]
    simp only [List.length_cons]
    push_cast
    ring

theorem bigramList_length : ∀ l : List Nat, (bigramList l).length = l.length - 1 := by
  intro l
  induction l with
  | nil => rfl
  | cons a t ih =>
    cases t with
    | nil => rfl
    | cons b u =>
      simp only [bigramList, List.length_cons]
      rw [ih]
      simp

theorem mem_normalizedOptions {q : JSVal} {x : List Nat}
    (hx : x ∈ normalizedOptions q) : ∃ y, normalizeText y = x := by
  unfold normalizedOptions at hx
  have hx2 := List.mem_of_mem_filter hx
  rcases List.mem_map.mp hx2 with ⟨y, _, hy⟩
  exact ⟨y, hy⟩

theorem bigrams_ne_nil_of_trim {q : JSVal} {x : List Nat}
    (hx : x ∈ normalizedOptions q) (hl : 2 ≤ (trimWs x).length) :
    (bigrams x).length ≠ 0 := by
  obtain ⟨y, hy⟩ := mem_normalizedOptions hx
  have hnx : normalizeText x = trimWs x := by
    rw [← hy]
    exact normalizeText_normalizeText y
  unfold bigrams
  rw [hnx, if_neg (by omega), bigramList_length]
  omega

/-- The question used to exercise claim C9's single-character clause. -/
def qSingleChar : JSVal := .obj [("options", .arr [.str (codes "a")])]

/-- Claim C9 (amended): `questionSimilarity(q, q) = 1` for every question
with at least one usable normalized option all of whose normalized options
have length at least 2 *after trimming* (equivalently, whose bigram
sequences are non-empty); and for a question with a single-character
normalized option, `questionSimilarity(q, q) < 1`, because such an option
has an empty bigram sequence and `diceSimilarity` of it with itself is 0.
The trimming proviso is forced: `diceSimilarity` re-normalizes its
arguments, which trims an already-normalized string. -/
theorem questionSimilarity_reflexive_conditional :
    (∀ q : JSVal, normalizedOptions q ≠ [] →
      (∀ x ∈ normalizedOptions q, 2 ≤ (trimWs x).length) →
      questionSimilarity (normalizedOptions q) (normalizedOptions q) = 1)
    ∧ (normalizedOptions qSingleChar ≠ [] ∧
       questionSimilarity (normalizedOptions qSingleChar)
         (normalizedOptions qSingleChar) < 1) := by
  constructor
  · intro q hn hl
    have hinner : ∀ x ∈ normalizedOptions q,
        ((normalizedOptions q).foldl
          (fun best y => max best (diceSimilarity x y)) 0) = 1 := by
      intro x hx
      refine le_antisymm ?_ ?_
      · exact foldl_max_le_of _ _ _ _ (by norm_num)
          (fun y _ => diceSimilarity_le_one x y)
      · have hmem := foldl_max_ge_mem (diceSimilarity x) (normalizedOptions q) hx 0
        rwa [diceSimilarity_self (bigrams_ne_nil_of_trim hx (hl x hx))] at hmem
    have hlenq : ((normalizedOptions q).length : ℚ) ≠ 0 := by
      simp only [ne_eq, Nat.cast_eq_zero, List.length_eq_zero]
      exact hn
    have hsum : (normalizedOptions q).foldl
        (fun sum x => sum + ((normalizedOptions q).foldl
          (fun best y => max best (diceSimilarity x y)) 0)) 0
        = ((normalizedOptions q).length : ℚ) := by
      rw [foldl_add_const _ _ hinner 0]
      ring
    simp only [questionSimilarity, bestAvg]
    have hne0 : (normalizedOptions q).length ≠ 0 :=
      fun h => hn (List.length_eq_zero.mp h)
    rw [if_neg (by rw [or_self]; exact hne0)]
    rw [hsum]
    field_simp
  · refine ⟨by decide, ?_⟩
    have hA : normalizedOptions qSingleChar = [[97]] := by decide
    rw [hA]
    have hd : diceSimilarity [97] [97] = 0 := rfl
    simp only [questionSimilarity, bestAvg, List.foldl_cons, List.foldl_nil, hd,
      List.length_cons, List.length_nil]
    norm_num

/-- The question used as the claim C9 witness: one five-letter option. -/
def qHello : JSVal := .obj [("options", .arr [.str (codes "hello")])]

theorem questionSimilarity_reflexive_conditional_witness :
    normalizedOptions qHello ≠ [] ∧
    (∀ x ∈ normalizedOptions qHello, 2 ≤ (trimWs x).length) ∧
    questionSimilarity (normalizedOptions qHello) (normalizedOptions qHello) = 1 :=
  ⟨by decide, by decide,
    questionSimilarity_reflexive_conditional.1 qHello (by decide) (by decide)⟩

/-- The question used for claim C9's counterexample: its single option
`"a!"` normalizes to `"a "`, of length 2, yet its self-similarity is 0. -/
def qBangA : JSVal := .obj [("options", .arr [.str (codes "a!")])]

/-- Claim C9, counterexample: `qBangA` satisfies the claim's hypothesis as
stated — a usable normalized option list all of whose entries have length
at least 2 — but its self-similarity is 0, not 1: the normalized option
`"a "` carries a trailing space, and `diceSimilarity` re-normalizes (and
thus trims) it down to one character, leaving no bigrams. -/
theorem questionSimilarity_reflexive_fails :
    (normalizedOptions qBangA ≠ [] ∧
      ∀ x ∈ normalizedOptions qBangA, 2 ≤ x.length)
    ∧ questionSimilarity (normalizedOptions qBangA)
        (normalizedOptions qBangA) < 1 := by
  refine ⟨⟨by decide, by decide⟩, ?_⟩
  have hA : normalizedOptions qBangA = [[97, 32]] := by decide
  rw [hA]
  have hd : diceSimilarity [97, 32] [97, 32] = 0 := rfl
  simp only [questionSimilarity, bestAvg, List.foldl_cons, List.foldl_nil, hd,
    List.length_cons, List.length_nil]
  norm_num

/-! ### Claim C4: the key-value-mapping branch of `extractOptions` -/

/-- Nullish values (`null` or `undefined`), as skipped by `??`. -/
def isNullish : JSVal → Bool
  | .undefined => true
  | .null => true
  | _ => false

theorem nullish_of_nullish {a b : JSVal} (h : isNullish a = true) :
    nullish a b = b := by
  cases a <;> first | rfl | simp [isNullish] at h

theorem nullish_of_not_nullish {a b : JSVal} (h : isNullish a = false) :
    nullish a b = a := by
  cases a <;> first | rfl | simp [isNullish] at h

/-- Mapping values on which the mapping-branch coercion provably agrees
with the sequence-branch coercion: plain strings, and objects whose
`text ?? label` chain hits.  (On an object with only a `value` field the two
branches differ — see `extractOptions_map_value_fallback`.) -/
def goodMapVal (v : JSVal) : Bool :=
  match v with
  | .str _ => true
  | .obj _ => !isNullish (nullish (getField v "text") (getField v "label"))
  | _ => false

theorem coerce_agree {v : JSVal} (h : goodMapVal v = true) :
    coerceMapElem v = coerceSeqElem v := by
  cases v with
  | str s => rfl
  | obj fields =>
    simp only [goodMapVal, Bool.not_eq_true'] at h
    unfold coerceMapElem coerceSeqElem
    cases ht : isNullish (getField (JSVal.obj fields) "text") with
    | false =>
      rw [nullish_of_not_nullish ht, nullish_of_not_nullish ht]
    | true =>
      rw [nullish_of_nullish ht, nullish_of_nullish ht]
      rw [nullish_of_nullish ht] at h
      cases hl : isNullish (getField (JSVal.obj fields) "label") with
      | false =>
        rw [nullish_of_not_nullish hl, nullish_of_not_nullish hl]
      | true => rw [hl] at h; cases h
  | undefined => simp [goodMapVal] at h
  | null => simp [goodMapVal] at h
  | bool b => simp [goodMapVal] at h
  | num n => simp [goodMapVal] at h
  | arr es => simp [goodMapVal] at h

/-- Claim C4 (amended): in the key-value-mapping branch of `extractOptions`
a plain string value is used as-is and an object value is coerced via
`String(x?.text ?? x?.label ?? x ?? "")` — the final fallback is the value
*itself* (stringifying a plain object to `"[object Object]"`), not its
`value` field as in the sequence branch.  For mappings whose values are
strings or objects with a usable `text` or `label`, the two branches agree
elementwise, and in particular
`extractOptions({choices: {a: "X", b: "Y"}})` yields `["X", "Y"]`. -/
theorem extractOptions_map_case :
    (∀ fields : List (String × JSVal),
      (∀ v ∈ fields.map Prod.snd, goodMapVal v = true) →
      extractOptions (.obj [("choices", .obj fields)])
        = extractOptions (.obj [("options", .arr (fields.map Prod.snd))]))
    ∧ extractOptions (.obj [("choices", .obj [("a", .str (codes "X")),
        ("b", .str (codes "Y"))])]) = [codes "X", codes "Y"] := by
  constructor
  · intro fields h
    show ((fields.map (fun kv => coerceMapElem kv.2)).map trimWs).filter
        (fun s => !s.isEmpty)
      = (((fields.map Prod.snd).map coerceSeqElem).map trimWs).filter
        (fun s => !s.isEmpty)
    have hmaps : fields.map (fun kv => coerceMapElem kv.2)
        = (fields.map Prod.snd).map coerceSeqElem := by
      rw [List.map_map]
      exact List.map_congr_left
        (fun kv hkv => coerce_agree (h kv.2 (List.mem_map_of_mem Prod.snd hkv)))
    rw [hmaps]
  · decide

theorem extractOptions_map_case_witness :
    (∀ v ∈ ([("a", JSVal.str (codes "X")), ("b", JSVal.str (codes "Y"))].map
        Prod.snd), goodMapVal v = true)
    ∧ extractOptions (.obj [("choices", .obj [("a", .str (codes "X")),
        ("b", .str (codes "Y"))])])
      = extractOptions (.obj [("options", .arr ([("a", JSVal.str (codes "X")),
        ("b", JSVal.str (codes "Y"))].map Prod.snd))]) :=
  ⟨by decide, extractOptions_map_case.1
    [("a", JSVal.str (codes "X")), ("b", JSVal.str (codes "Y"))] (by decide)⟩

/-- The record used for claim C4's counterexample: a `choices` mapping whose
single value is an object carrying only a `value` field. -/
def qValueOnly : JSVal :=
  .obj [("choices", .obj [("k", .obj [("value", .str (codes "Z"))])])]

/-- Claim C4, counterexample: in the mapping branch an object value with
only a `value` field is *not* coerced as in the sequence branch: the
fallback chain ends at the object itself, which stringifies to
`"[object Object]"`, not at the `value` field `"Z"`. -/
theorem extractOptions_map_value_fallback :
    extractOptions qValueOnly = [codes "[object Object]"]
    ∧ extractOptions qValueOnly ≠ [codes "Z"] := by
  have hc : coerceMapElem (.obj [("value", .str (codes "Z"))])
      = codes "[object Object]" := by
    have harg : coerceMapElem (.obj [("value", .str (codes "Z"))])
        = jsToString (JSVal.obj [("value", JSVal.str (codes "Z"))]) := rfl
    rw [harg]
    simp [jsToString]
  have h : extractOptions qValueOnly = [codes "[object Object]"] := by
    show ((([("k", JSVal.obj [("value", .str (codes "Z"))])].map
        (fun kv => coerceMapElem kv.2)).map trimWs).filter
        (fun s => !s.isEmpty)) = _
    rw [List.map_cons, List.map_nil, hc]
    decide
  refine ⟨h, ?_⟩
  rw [h]
  simp [codes]

/-! ### Claim C7: the seeded shuffle -/

theorem setPerm {α : Type} :
    ∀ (t : List α) (k : Nat) (b x : α), t[k]? = some b →
    (b :: t.set k x).Perm (x :: t) := by
  intro t
  induction t with
  | nil => intro k b x hk; simp at hk
  | cons y u ih =>
    intro k b x hk
    cases k with
    | zero =>
      simp only [List.getElem?_cons_zero, Option.some.injEq] at hk
      subst hk
      simp only [List.set_cons_zero]
      exact List.Perm.swap x y u
    | succ m =>
      simp only [List.getElem?_cons_succ] at hk
      simp only [List.set_cons_succ]
      exact (List.Perm.swap y b (u.set m x)).trans
        (((ih m b x hk).cons y).trans (List.Perm.swap x y u))

theorem set_set_perm {α : Type} :
    ∀ (l : List α) (i j : Nat) (a b : α), l[i]? = some a → l[j]? = some b →
    ((l.set i b).set j a).Perm l := by
  intro l
  induction l with
  | nil => intro i j a b hi _; simp at hi
  | cons x t ih =>
    intro i j a b hi hj
    cases i with
    | zero =>
      simp only [List.getElem?_cons_zero, Option.some.injEq] at hi
      subst hi
      cases j with
      | zero => simp
      | succ m =>
        simp only [List.getElem?_cons_succ] at hj
        simp only [List.set_cons_zero, List.set_cons_succ]
        exact setPerm t m b x hj
    | succ n =>
      simp only [List.getElem?_cons_succ] at hi
      cases j with
      | zero =>
        simp only [List.getElem?_cons_zero, Option.some.injEq] at hj
        subst hj
        simp only [List.set_cons_succ, List.set_cons_zero]
        exact setPerm t n a x hi
      | succ m =>
        simp only [List.getElem?_cons_succ] at hj
        simp only [List.set_cons_succ]
        exact (ih n m a b hi hj).cons x

theorem listSwap_perm {α : Type} (l : List α) (i j : Nat) :
    (listSwap l i j).Perm l := by
  unfold listSwap
  split
  · next a b hi hj => exact set_set_perm l i j a b hi hj
  · exact List.Perm.refl l

theorem fyLoop_perm {α : Type} : ∀ (i : Nat) (l : List α) (h : Nat),
    (fyLoop l h i).Perm l := by
  intro i
  induction i with
  | zero => intro l h; exact List.Perm.refl l
  | succ n ih =>
    intro l h
    show (fyLoop (listSwap l (n + 1) (rndVal (h + 0x6d2b79f5) * (n + 2) / 2 ^ 32))
      (h + 0x6d2b79f5) n).Perm l
    exact (ih _ _).trans (listSwap_perm l (n + 1) _)

/-- Claim C7: `seededShuffle` returns a permutation of its input for every
sequence and seed.  In this pure-functional embedding the other two parts
of the claim hold by construction: the model is a mathematical function of
`(sequence, seed)` — two calls on the same pair are the same term, so the
output is deterministic — and the input list is immutable, so the returned
sequence is a fresh value and the input is left unchanged (the source
shuffles a copy `[...arr]` in place). -/
theorem seededShuffle_perm {α : Type} (arr : List α) (seed : List Nat) :
    (seededShuffle arr seed).Perm arr :=
  fyLoop_perm (arr.length - 1) arr (fnvHash seed)

/-! ### Claim C6: the nearest-neighbor orderer returns a permutation -/

theorem setDedup_go (l : List Nat) :
    ∀ acc : List Nat, (acc ++ l).Nodup →
    l.foldl (fun acc x => if x ∈ acc then acc else acc ++ [x]) acc = acc ++ l := by
  induction l with
  | nil => intro acc _; simp
  | cons x xs ih =>
    intro acc hnd
    have hx : x ∉ acc := by
      rcases List.nodup_append.mp hnd with ⟨_, _, hdisj⟩
      exact fun hmem => hdisj hmem (List.mem_cons_self x xs)
    rw [List.foldl_cons, if_neg hx, ih (acc ++ [x]) (by simpa using hnd)]
    simp

theorem setDedup_of_nodup {l : List Nat} (h : l.Nodup) : setDedup l = l := by
  have hgo := setDedup_go l [] (by simpa using h)
  simpa [setDedup] using hgo

theorem lookup_map_idOf {α : Type} (idOf : α → Nat) (dflt : α) :
    ∀ (arr : List α) (id : Nat), id ∈ arr.map idOf →
    idOf (((arr.map (fun q => (idOf q, q))).lookup id).getD dflt) = id := by
  intro arr
  induction arr with
  | nil => intro id hid; simp at hid
  | cons q rest ih =>
    intro id hid
    simp only [List.map_cons, List.lookup_cons]
    by_cases h : id = idOf q
    · have hbeq : (id == idOf q) = true := beq_iff_eq.mpr h
      simp only [hbeq, Option.getD_some]
      exact h.symm
    · have hbeq : (id == idOf q) = false := beq_eq_false_iff_ne.mpr h
      simp only [hbeq]
      refine ih id ?_
      have hid2 : id = idOf q ∨ ∃ a ∈ rest, idOf a = id := by simpa using hid
      rcases hid2 with h1 | ⟨a, ha, haid⟩
      · exact absurd h1 h
      · exact List.mem_map.mpr ⟨a, ha, haid⟩

theorem innerChain_perm {α : Type} (qsim : α → α → ℚ) (get : Nat → α)
    (idOf : α → Nat) :
    ∀ (n : Nat) (remaining : List Nat), remaining.length ≤ n →
    (∀ id ∈ remaining, idOf (get id) = id) → ∀ current : α,
    ((innerChain qsim get current remaining).1.map idOf
      ++ (innerChain qsim get current remaining).2).Perm remaining := by
  intro n
  induction n with
  | zero =>
    intro remaining hlen hc current
    have hnil : remaining = [] := List.eq_nil_of_length_eq_zero (Nat.le_zero.mp hlen)
    subst hnil
    rw [innerChain]
    simp [scanBest]
  | succ n ih =>
    intro remaining hlen hc current
    rw [innerChain]
    split
    · simp
    · next id h =>
      have hmem : id ∈ remaining := scanBest_mem h
      have hlt : (remaining.erase id).length < remaining.length := length_erase_lt hmem
      have hrec := ih (remaining.erase id) (by omega)
        (fun j hj => hc j (List.mem_of_mem_erase hj)) (get id)
      show ((get id :: (innerChain qsim get (get id) (remaining.erase id)).1).map idOf
        ++ (innerChain qsim get (get id) (remaining.erase id)).2).Perm remaining
      rw [List.map_cons, List.cons_append]
      rw [hc id hmem]
      exact (hrec.cons id).trans (List.perm_cons_erase hmem).symm

theorem outerLoop_perm {α : Type} (meta : Nat → ℚ) (qsim : α → α → ℚ)
    (get : Nat → α) (idOf : α → Nat) :
    ∀ (n : Nat) (remaining : List Nat), remaining.length ≤ n →
    (∀ id ∈ remaining, idOf (get id) = id) →
    ((outerLoop meta qsim get remaining).map idOf).Perm remaining := by
  intro n
  induction n with
  | zero =>
    intro remaining hlen hc
    have hnil : remaining = [] := List.eq_nil_of_length_eq_zero (Nat.le_zero.mp hlen)
    subst hnil
    simp [outerLoop]
  | succ n ih =>
    intro remaining hlen hc
    by_cases hne : remaining.isEmpty
    · rw [List.isEmpty_iff] at hne
      subst hne
      simp [outerLoop]
    · have hnnil : remaining ≠ [] := by
        intro hcon
        rw [hcon] at hne
        exact hne rfl
      have hsmem : pickStartId meta remaining ∈ remaining := pickStartId_mem hnnil
      have hid : idOf (get (pickStartId meta remaining)) = pickStartId meta remaining :=
        hc _ hsmem
      have hlt : (remaining.erase (pickStartId meta remaining)).length
          < remaining.length := length_erase_lt hsmem
      have hinner := innerChain_perm qsim get idOf
        (remaining.erase (pickStartId meta remaining)).length
        (remaining.erase (pickStartId meta remaining)) (Nat.le_refl _)
        (fun j hj => hc j (List.mem_of_mem_erase hj))
        (get (pickStartId meta remaining))
      have hrlen := innerChain_rem_length qsim get
        (remaining.erase (pickStartId meta remaining)).length
        (remaining.erase (pickStartId meta remaining)) (Nat.le_refl _)
        (get (pickStartId meta remaining))
      have hrsub : ∀ j ∈ (innerChain qsim get (get (pickStartId meta remaining))
          (remaining.erase (pickStartId meta remaining))).2,
          j ∈ remaining := by
        intro j hj
        have hj2 : j ∈ (innerChain qsim get (get (pickStartId meta remaining))
            (remaining.erase (pickStartId meta remaining))).1.map idOf
          ++ (innerChain qsim get (get (pickStartId meta remaining))
            (remaining.erase (pickStartId meta remaining))).2 :=
          List.mem_append_right _ hj
        exact List.mem_of_mem_erase (hinner.mem_iff.mp hj2)
      have houter := ih (innerChain qsim get (get (pickStartId meta remaining))
          (remaining.erase (pickStartId meta remaining))).2
        (by omega) (fun j hj => hc j (hrsub j hj))
      have heq : outerLoop meta qsim get remaining
          = (get (pickStartId meta remaining)
              :: (innerChain qsim get (get (pickStartId meta remaining))
                (remaining.erase (pickStartId meta remaining))).1)
            ++ outerLoop meta qsim get
              (innerChain qsim get (get (pickStartId meta remaining))
                (remaining.erase (pickStartId meta remaining))).2 := by
        rw [outerLoop]
        rw [dif_neg hne]
      rw [heq, List.map_append, List.map_cons, hid]
      have hstep1 : (pickStartId meta remaining
            :: ((innerChain qsim get (get (pickStartId meta remaining))
              (remaining.erase (pickStartId meta remaining))).1.map idOf
          ++ (outerLoop meta qsim get
              (innerChain qsim get (get (pickStartId meta remaining))
                (remaining.erase (pickStartId meta remaining))).2).map idOf)).Perm
          (pickStartId meta remaining
            :: ((innerChain qsim get (get (pickStartId meta remaining))
              (remaining.erase (pickStartId meta remaining))).1.map idOf
          ++ (innerChain qsim get (get (pickStartId meta remaining))
              (remaining.erase (pickStartId meta remaining))).2)) :=
        (List.Perm.append_left _ houter).cons _
      rw [List.cons_append]
      exact hstep1.trans ((hinner.cons _).trans (List.perm_cons_erase hsmem).symm)

/-- Claim C6: `orderSimilarQuestions` returns a permutation of its input
bucket — for every bucket with distinct ids the output multiset of ids
equals the input multiset (same length, no duplicates) — and every bucket
of at most 2 elements is returned unchanged.  The statement is quantified
over the closed-over `similarMetaById` scores, `questionSimilarity`
function, sort mode and seed. -/
theorem orderSimilarQuestions_spec {α : Type} (meta : Nat → ℚ)
    (qsim : α → α → ℚ) (idOf : α → Nat) (dflt : α) (isRandom : Bool)
    (seed : List Nat) (arr : List α) :
    ((arr.map idOf).Nodup →
      ((orderSimilarQuestions meta qsim idOf dflt isRandom seed arr).map idOf).Perm
        (arr.map idOf))
    ∧ (arr.length ≤ 2 →
        orderSimilarQuestions meta qsim idOf dflt isRandom seed arr = arr) := by
  constructor
  · intro hnd
    unfold orderSimilarQuestions
    by_cases hlen : arr.length ≤ 2
    · rw [if_pos hlen]
    · rw [if_neg hlen]
      have hsd : setDedup (arr.map idOf) = arr.map idOf := setDedup_of_nodup hnd
      have hcons : ∀ id ∈ setDedup (arr.map idOf),
          idOf (((arr.map (fun q => (idOf q, q))).lookup id).getD dflt) = id := by
        rw [hsd]
        intro id hid
        exact lookup_map_idOf idOf dflt arr id hid
      have hout := outerLoop_perm meta qsim
        (fun id => ((arr.map (fun q => (idOf q, q))).lookup id).getD dflt) idOf
        (setDedup (arr.map idOf)).length (setDedup (arr.map idOf))
        (Nat.le_refl _) hcons
      rw [hsd] at hout
      show ((if isRandom then
          seededShuffle (outerLoop meta qsim
            (fun id => ((arr.map (fun q => (idOf q, q))).lookup id).getD dflt)
            (setDedup (arr.map idOf))) seed
        else outerLoop meta qsim
            (fun id => ((arr.map (fun q => (idOf q, q))).lookup id).getD dflt)
            (setDedup (arr.map idOf))).map idOf).Perm (arr.map idOf)
      rw [hsd]
      cases isRandom with
      | false => simpa using hout
      | true =>
        simp only [if_true]
        exact ((seededShuffle_perm _ seed).map idOf).trans hout
  · intro hlen
    unfold orderSimilarQuestions
    rw [if_pos hlen]

theorem orderSimilarQuestions_spec_witness :
    (([10, 20, 30].map (fun n => n)).Nodup ∧
      ((orderSimilarQuestions (fun _ => 0) (fun _ _ => 0) (fun n => n) 0 false []
          [10, 20, 30]).map (fun n => n)).Perm ([10, 20, 30].map (fun n => n)))
    ∧ ([10, 20].length ≤ 2 ∧
        orderSimilarQuestions (fun _ => 0) (fun _ _ => 0) (fun n => n) 0 false []
          [10, 20] = [10, 20]) :=
  ⟨⟨by decide,
    (orderSimilarQuestions_spec (fun _ => 0) (fun _ _ => 0) (fun n => n) 0 false []
      [10, 20, 30]).1 (by decide)⟩,
   ⟨by decide,
    (orderSimilarQuestions_spec (fun _ => 0) (fun _ _ => 0) (fun n => n) 0 false []
      [10, 20]).2 (by decide)⟩⟩
